import Mathlib

/-!
Verification of the SHELF loader (`src/main.rs`): a shallow embedding of
the ELF segment mapper, program-header relocator, auxiliary-vector
rewriter, and the discovered-stack builder, with theorems checking the
design document's claims against the code.

Machine conventions of the source (x86-64 Linux): machine words and byte
values are modelled as `Nat`; addresses that may hold the `MAP_FAILED`
value `-1` are modelled as `Int`.
-/

namespace Shelf

/-! ## Constants from `main.rs` and the libc / goblin crates -/

def AT_NULL : Nat := 0
def AT_PHDR : Nat := 3
def AT_PHENT : Nat := 4
def AT_PHNUM : Nat := 5
def AT_BASE : Nat := 7
def AT_ENTRY : Nat := 9

def PT_LOAD : Nat := 1
def PT_DYNAMIC : Nat := 2
def PT_TLS : Nat := 7

/-- `goblin::elf::program_header::program_header64::SIZEOF_PHDR` -/
def SIZEOF_PHDR : Nat := 56

def MAP_PRIVATE : Nat := 2
def MAP_ANONYMOUS : Nat := 32

/-! ## ELF data model (the descriptor produced by the external parser) -/

/-- A 64-bit ELF program header (`goblin`'s `program_header64::ProgramHeader`). -/
structure ProgramHeader where
  p_type : Nat
  p_flags : Nat
  p_offset : Nat
  p_vaddr : Nat
  p_paddr : Nat
  p_filesz : Nat
  p_memsz : Nat
  p_align : Nat
deriving DecidableEq, Repr

/-- The parts of goblin's `Elf` descriptor that `process_elf` reads. -/
structure Elf where
  entry : Nat
  e_phoff : Nat
  program_headers : List ProgramHeader
deriving DecidableEq, Repr

/-- `struct ElfAuxv { key: usize, value: usize }` -/
structure ElfAuxv where
  key : Nat
  value : Nat
deriving DecidableEq, Repr

/-! ## Auxiliary Vector Rewriter (`setup_auxv`, main.rs:123-136) -/

/-- The loop body of `setup_auxv`: the Rust `match` on `aux.key` becomes a
chain of equality tests (the five constants are pairwise distinct). -/
def rewriteAux (phdr : Nat) (phnum : Nat) (entry : Nat) (aux : ElfAuxv) : ElfAuxv :=
  if aux.key = AT_PHDR then { aux with value := phdr }
  else if aux.key = AT_PHNUM then { aux with value := phnum }
  else if aux.key = AT_PHENT then { aux with value := SIZEOF_PHDR }
  else if aux.key = AT_BASE then { aux with value := 0 }
  else if aux.key = AT_ENTRY then { aux with value := entry }
  else aux

/-- Shallow embedding of `setup_auxv`: rewrite in place the entries with a
recognized key, leave every other entry untouched. -/
def setup_auxv (auxv : List ElfAuxv) (phdr : Nat) (phnum : Nat) (entry : Nat) :
    List ElfAuxv :=
  auxv.map (rewriteAux phdr phnum entry)

/-! ## Segment mapper and program-header relocator (`process_elf`, main.rs:150-198) -/

/-- The single pass over `elf.program_headers` (main.rs:155-163): the last
`PT_LOAD` header wins the `load_phdr` slot, `PT_TLS` and `PT_DYNAMIC`
headers are pushed onto `phdrs` in order, everything else is dropped. -/
def scanHeaders (acc : Option ProgramHeader × List ProgramHeader) :
    List ProgramHeader → Option ProgramHeader × List ProgramHeader
  | [] => acc
  | h :: t =>
    if h.p_type = PT_LOAD then scanHeaders (some h, acc.2) t
    else if h.p_type = PT_TLS ∨ h.p_type = PT_DYNAMIC then
      scanHeaders (acc.1, acc.2 ++ [h]) t
    else scanHeaders acc t

/-- Little-endian byte encoding of `v` on `w` bytes. -/
def leBytes (w : Nat) (v : Nat) : List Nat :=
  (List.range w).map (fun i => v / 256 ^ i % 256)

/-- Byte image of a 64-bit program header as laid out in memory
(`#[repr(C)]`): p_type, p_flags (4 bytes each), then the six 8-byte
fields. -/
def encodePhdr (h : ProgramHeader) : List Nat :=
  leBytes 4 h.p_type ++ leBytes 4 h.p_flags ++ leBytes 8 h.p_offset ++
  leBytes 8 h.p_vaddr ++ leBytes 8 h.p_paddr ++ leBytes 8 h.p_filesz ++
  leBytes 8 h.p_memsz ++ leBytes 8 h.p_align

/-- Byte image of a list of program headers, one after the other
(the `copy_from_slice` at main.rs:196). -/
def phdrBytesOf : List ProgramHeader → List Nat
  | [] => []
  | h :: t => encodePhdr h ++ phdrBytesOf t

/-- `std::ptr::copy_nonoverlapping`: overwrite `src.length` bytes of `mem`
starting at offset `dst`.  Memory regions are byte functions from offset
to value. -/
def copyBytes (mem : Nat → Nat) (dst : Nat) (src : List Nat) : Nat → Nat :=
  fun a => if dst ≤ a ∧ a < dst + src.length then src.getD (a - dst) 0 else mem a

/-- Observable actions `process_elf` performs, in program order. -/
inductive Step where
  | mmapCall (len : Nat) (prot : Nat) (flags : Nat)
  | segmentCopy (dst : Int) (len : Nat)
  | phdrCopy (dst : Int) (len : Nat)
  | stackEdit
  | exec (entry : Int)
deriving DecidableEq, Repr

/-- Everything `process_elf` has computed once the image is in place:
the mmap request, the mapping base actually used (`-1` when `mmap`
returned `MAP_FAILED`, since the code never checks), the region contents
after the segment copy (`region1`) and after the program-header copy
(`region2`), and the relocated header table. -/
structure LoadedImage where
  loadPhdr : ProgramHeader
  mmapLen : Nat
  mmapProt : Nat
  mmapFlags : Nat
  mapping : Int
  entry : Int
  segBytes : List Nat
  region1 : Nat → Nat
  phdrsList : List ProgramHeader
  phnum : Nat
  phdrBytes : List Nat
  phoff : Nat
  region2 : Nat → Nat

/-- The pure image construction done by `process_elf` (main.rs:166-198)
once a `LOAD` header `ph` has been selected and `mmap` has returned
`mapping`. -/
def loadImage (elf : Elf) (ph : ProgramHeader) (raw : List Nat) (mapping : Int) :
    LoadedImage :=
  let src := (raw.drop ph.p_offset).take ph.p_filesz
  let region1 := copyBytes (fun _ => 0) ph.p_vaddr src
  let phdrsList := (scanHeaders (none, []) elf.program_headers).2
  let bytes := phdrBytesOf phdrsList
  { loadPhdr := ph
    mmapLen := ph.p_memsz + ph.p_vaddr
    mmapProt := ph.p_flags
    mmapFlags := MAP_PRIVATE + MAP_ANONYMOUS
    mapping := mapping
    entry := mapping + (elf.entry : Int)
    segBytes := src
    region1 := region1
    phdrsList := phdrsList
    phnum := phdrsList.length
    phdrBytes := bytes
    phoff := elf.e_phoff
    region2 := copyBytes region1 elf.e_phoff bytes }

/-- Shallow embedding of `process_elf` up to the stack edit (main.rs:150-213).
`alloc` is the allocator's answer: `some base` on success, `none` when
`mmap` returns `MAP_FAILED`; the code reads the returned value without
checking it, so on failure the base used is `-1`.  The Rust panics
(`expect("No loadable segments")`, out-of-range slice of `raw_file`)
become `Except.error`.  The returned list records the actions performed
before the error, in order. -/
def processElf (elf : Elf) (raw : List Nat) (alloc : Option Nat) :
    List Step × Except String LoadedImage :=
  let scanned := scanHeaders (none, []) elf.program_headers
  match scanned.1 with
  | none => ([], Except.error "No loadable segments")
  | some ph =>
    let mapping : Int := match alloc with
      | some base => (base : Int)
      | none => -1
    let mmapStep := Step.mmapCall (ph.p_memsz + ph.p_vaddr) ph.p_flags
      (MAP_PRIVATE + MAP_ANONYMOUS)
    if ph.p_offset + ph.p_filesz ≤ raw.length then
      let img := loadImage elf ph raw mapping
      ([mmapStep,
        Step.segmentCopy (mapping + (ph.p_vaddr : Int)) img.segBytes.length,
        Step.phdrCopy (mapping + (elf.e_phoff : Int)) img.phdrBytes.length,
        Step.stackEdit,
        Step.exec img.entry],
       Except.ok img)
    else
      ([mmapStep], Except.error "slice index out of range")

/-! ## Process Stack Builder, Strategy B (`get_initial_stack`, main.rs:38-121)

The process stack is modelled as word-addressed memory `mem : Nat → Nat`
(index = address in machine words, value = the word stored there).
Auxiliary-vector entries occupy two consecutive words (key, value). -/

/-- The recovered `Stack` struct: word index of the `argc` cell, and the
positions/lengths of the three arrays (lengths include the terminators,
exactly as in the Rust code). -/
structure Stack where
  argc : Nat
  argvPos : Nat
  argvLen : Nat
  envpPos : Nat
  envpLen : Nat
  auxvPos : Nat
  auxvLen : Nat
deriving DecidableEq, Repr

/-- The first loop of `get_initial_stack` (main.rs:76-85): walk forward
from `p` until a null word, then step once more.  Returns the word index
just past the null together with the element count including the null.
The Rust loop is unbounded; `fuel` models that running past the end of
mapped memory is a fault (`none`). -/
def envScan (mem : Nat → Nat) : Nat → Nat → Nat → Option (Nat × Nat)
  | _, _, 0 => none
  | p, len, fuel + 1 =>
    if mem p ≠ 0 then envScan mem (p + 1) (len + 1) fuel
    else some (p + 1, len + 1)

/-- The second loop (main.rs:89-98): count auxv entries (stride two words)
until the `AT_NULL` key, then add one for the terminator. -/
def auxvScan (mem : Nat → Nat) : Nat → Nat → Nat → Option Nat
  | _, _, 0 => none
  | p, len, fuel + 1 =>
    if mem p ≠ AT_NULL then auxvScan mem (p + 2) (len + 1) fuel
    else some (len + 1)

/-- The backward scan (main.rs:101-109): starting at word index `p` with
`steps` words already walked, stop as soon as the word at `p` equals the
step count.  Walking below address zero models the fault of running off
the bottom of mapped memory (`none`). -/
def argcScan (mem : Nat → Nat) : Nat → Nat → Option (Nat × Nat)
  | 0, steps => if mem 0 = steps then some (0, steps) else none
  | p + 1, steps =>
    if mem (p + 1) = steps then some (p + 1, steps)
    else argcScan mem p (steps + 1)

/-- Shallow embedding of `get_initial_stack`: from the runtime's `environ`
word index, find the auxv array and the envp length, then scan backwards
from `envp - 2` for the `argc` cell. -/
def get_initial_stack (mem : Nat → Nat) (envp : Nat) (fuel : Nat) : Option Stack :=
  match envScan mem envp 0 fuel with
  | none => none
  | some (auxvPos, envpLen) =>
    match auxvScan mem auxvPos 0 fuel with
    | none => none
    | some auxvLen =>
      match argcScan mem (envp - 2) 0 with
      | none => none
      | some (argcPos, steps) =>
        some { argc := argcPos
               argvPos := argcPos + 1
               argvLen := steps + 1
               envpPos := envp
               envpLen := envpLen
               auxvPos := auxvPos
               auxvLen := auxvLen }

/-- The argv adjustment of `process_elf` (main.rs:204-211): shift the argv
slice by one element, move the `argc` pointer up one word, and store the
new argument count (new slice length minus one, for the null) through it. -/
def adjustArgs (mem : Nat → Nat) (st : Stack) : (Nat → Nat) × Stack :=
  (fun a => if a = st.argc + 1 then st.argvLen - 1 - 1 else mem a,
   { st with argc := st.argc + 1, argvPos := st.argvPos + 1, argvLen := st.argvLen - 1 })

/-! ## Synthetic stack frames (the test harness of §8 of the design) -/

/-- The word sequence of an auxv array. -/
def auxvWords : List ElfAuxv → List Nat
  | [] => []
  | a :: t => a.key :: a.value :: auxvWords t

/-- The word sequence of an initial process stack frame per the ABI:
argc, argv pointers, null, envp pointers, null, auxv entries (the auxv
list passed here carries its own `AT_NULL` terminator). -/
def frameWords (argvPtrs envPtrs : List Nat) (auxv : List ElfAuxv) : List Nat :=
  argvPtrs.length :: (argvPtrs ++ 0 :: (envPtrs ++ 0 :: auxvWords auxv))

/-- Word memory holding the frame at base address `b` (zero elsewhere). -/
def frameMem (b : Nat) (ws : List Nat) : Nat → Nat :=
  fun a => if b ≤ a then ws.getD (a - b) 0 else 0

/-- Read `n` consecutive words at `p`. -/
def readWords (mem : Nat → Nat) (p n : Nat) : List Nat :=
  (List.range n).map (fun i => mem (p + i))

/-- Read `n` auxv entries starting at word index `p`. -/
def readAuxv (mem : Nat → Nat) (p n : Nat) : List ElfAuxv :=
  (List.range n).map (fun i => ⟨mem (p + 2 * i), mem (p + 2 * i + 1)⟩)

/-- Write an auxv array at word index `p`. -/
def writeAuxv (mem : Nat → Nat) (p : Nat) (l : List ElfAuxv) : Nat → Nat :=
  fun a => if p ≤ a ∧ a < p + 2 * l.length then (auxvWords l).getD (a - p) 0 else mem a

/-! ## The two stack-builder strategies, compared on their observable output -/

/-- What the loaded binary observes on its stack, environment handling
aside: the argument count word, the argument strings in order, and the
auxiliary vector contents. -/
structure StackObs where
  argcVal : Nat
  argvStrings : List (List Nat)
  auxv : List ElfAuxv
deriving DecidableEq, Repr

/-- Modelled from the spec: Strategy A, the constructed stack of §4.4,
is absent from the repository's code.  Per the spec it writes the
argument count, then pointers to the program name and the caller-supplied
arguments, a null environment sentinel, and a copy of the original
auxiliary vector rewritten per §4.3.  Observably: count = 1 + #args,
strings = target :: args, auxv = the §4.3 rewrite of the original. -/
def strategyA (target : List Nat) (args : List (List Nat)) (origAuxv : List ElfAuxv)
    (phdr phnum entry : Nat) : StackObs :=
  { argcVal := (target :: args).length
    argvStrings := target :: args
    auxv := setup_auxv origAuxv phdr phnum entry }

/-- Strategy B as the code performs it: discover the live frame with
`get_initial_stack`, rewrite its auxv in place (`setup_auxv`,
main.rs:202), drop the loader's own first argument (main.rs:204-211),
then observe the resulting frame.  `strAt` reads the null-terminated
string a pointer refers to. -/
def strategyB (mem : Nat → Nat) (envp fuel : Nat) (phdr phnum entry : Nat)
    (strAt : Nat → List Nat) : Option StackObs :=
  (get_initial_stack mem envp fuel).map (fun st =>
    let mem1 := writeAuxv mem st.auxvPos
      (setup_auxv (readAuxv mem st.auxvPos st.auxvLen) phdr phnum entry)
    let p := adjustArgs mem1 st
    { argcVal := p.1 p.2.argc
      argvStrings := (readWords p.1 p.2.argvPos (p.2.argvLen - 1)).map strAt
      auxv := readAuxv p.1 p.2.auxvPos p.2.auxvLen })

/-! ## Helper lemmas -/

/-- The predicate selecting the headers the relocator keeps. -/
def isReloc (h : ProgramHeader) : Prop := h.p_type = PT_TLS ∨ h.p_type = PT_DYNAMIC

instance : DecidablePred isReloc := fun h => by unfold isReloc; infer_instance

/-- The predicate selecting loadable headers. -/
def isLoad (h : ProgramHeader) : Prop := h.p_type = PT_LOAD

instance : DecidablePred isLoad := fun h => by unfold isLoad; infer_instance

theorem scanHeaders_snd (l : List ProgramHeader) :
    ∀ o acc, (scanHeaders (o, acc) l).2 = acc ++ l.filter (fun h => decide (isReloc h)) := by
  induction l with
  | nil => intro o acc; simp [scanHeaders]
  | cons h t ih =>
    intro o acc
    by_cases hl : h.p_type = PT_LOAD
    · have hr : ¬ isReloc h := by
        unfold isReloc; rw [hl]; decide
      simp only [scanHeaders, if_pos hl, ih, List.filter_cons, decide_eq_true_eq]
      rw [if_neg hr]
    · by_cases hr : h.p_type = PT_TLS ∨ h.p_type = PT_DYNAMIC
      · have hr' : isReloc h := hr
        simp only [scanHeaders, if_neg hl, if_pos hr, ih, List.filter_cons,
          decide_eq_true_eq]
        rw [if_pos hr']
        simp
      · have hr' : ¬ isReloc h := hr
        simp only [scanHeaders, if_neg hl, if_neg hr, ih, List.filter_cons,
          decide_eq_true_eq]
        rw [if_neg hr']

theorem getLast?_cons_or {α : Type} (h : α) (L : List α) :
    (h :: L).getLast? = L.getLast?.or (some h) := by
  cases L with
  | nil => rfl
  | cons x t =>
    rw [List.getLast?_cons_cons]
    cases hx : (x :: t).getLast? with
    | none => exact absurd hx (by simp)
    | some y => rfl

theorem scanHeaders_fst (l : List ProgramHeader) :
    ∀ o acc, (scanHeaders (o, acc) l).1 =
      ((l.filter (fun h => decide (isLoad h))).getLast?).or o := by
  induction l with
  | nil => intro o acc; simp [scanHeaders]
  | cons h t ih =>
    intro o acc
    by_cases hl : h.p_type = PT_LOAD
    · have hL : isLoad h := hl
      simp only [scanHeaders, if_pos hl, ih, List.filter_cons, decide_eq_true_eq]
      rw [if_pos hL, getLast?_cons_or]
      cases (t.filter (fun h => decide (isLoad h))).getLast? <;> rfl
    · have hL : ¬ isLoad h := hl
      by_cases hr : h.p_type = PT_TLS ∨ h.p_type = PT_DYNAMIC
      · simp only [scanHeaders, if_neg hl, if_pos hr, ih, List.filter_cons,
          decide_eq_true_eq]
        rw [if_neg hL]
      · simp only [scanHeaders, if_neg hl, if_neg hr, ih, List.filter_cons,
          decide_eq_true_eq]
        rw [if_neg hL]

/-! ### Frame word lookups -/

theorem frameMem_at (b : Nat) (ws : List Nat) (a : Nat) (h : b ≤ a) :
    frameMem b ws a = ws.getD (a - b) 0 := by
  simp [frameMem, h]

theorem frameWords_getD_zero (av ev : List Nat) (ax : List ElfAuxv) :
    (frameWords av ev ax).getD 0 0 = av.length := rfl

theorem frameWords_getD_argv (av ev : List Nat) (ax : List ElfAuxv) (i : Nat)
    (h : i < av.length) :
    (frameWords av ev ax).getD (i + 1) 0 = av.getD i 0 := by
  unfold frameWords
  rw [List.getD_cons_succ, List.getD_append _ _ _ _ h]

theorem frameWords_getD_argvNull (av ev : List Nat) (ax : List ElfAuxv) :
    (frameWords av ev ax).getD (av.length + 1) 0 = 0 := by
  unfold frameWords
  rw [List.getD_cons_succ, List.getD_append_right _ _ _ _ (Nat.le_refl _),
    Nat.sub_self, List.getD_cons_zero]

theorem frameWords_getD_env (av ev : List Nat) (ax : List ElfAuxv) (j : Nat)
    (h : j < ev.length) :
    (frameWords av ev ax).getD (av.length + 2 + j) 0 = ev.getD j 0 := by
  unfold frameWords
  have h1 : av.length ≤ av.length + 1 + j := by omega
  rw [show av.length + 2 + j = (av.length + 1 + j) + 1 by omega,
    List.getD_cons_succ,
    List.getD_append_right _ _ _ _ h1,
    show av.length + 1 + j - av.length = j + 1 by omega,
    List.getD_cons_succ, List.getD_append _ _ _ _ h]

theorem frameWords_getD_envNull (av ev : List Nat) (ax : List ElfAuxv) :
    (frameWords av ev ax).getD (av.length + ev.length + 2) 0 = 0 := by
  unfold frameWords
  have h1 : av.length ≤ av.length + ev.length + 1 := by omega
  rw [show av.length + ev.length + 2 = (av.length + ev.length + 1) + 1 by omega,
    List.getD_cons_succ,
    List.getD_append_right _ _ _ _ h1,
    show av.length + ev.length + 1 - av.length = ev.length + 1 by omega,
    List.getD_cons_succ, List.getD_append_right _ _ _ _ (Nat.le_refl _),
    Nat.sub_self, List.getD_cons_zero]

theorem frameWords_getD_auxv (av ev : List Nat) (ax : List ElfAuxv) (j : Nat) :
    (frameWords av ev ax).getD (av.length + ev.length + 3 + j) 0 =
      (auxvWords ax).getD j 0 := by
  unfold frameWords
  have h1 : av.length ≤ av.length + ev.length + 2 + j := by omega
  rw [show av.length + ev.length + 3 + j = (av.length + ev.length + 2 + j) + 1 by omega,
    List.getD_cons_succ,
    List.getD_append_right _ _ _ _ h1,
    show av.length + ev.length + 2 + j - av.length = (ev.length + 1 + j) + 1 by omega,
    List.getD_cons_succ]
  have h2 : ev.length ≤ ev.length + 1 + j := by omega
  rw [List.getD_append_right _ _ _ _ h2,
    show ev.length + 1 + j - ev.length = j + 1 by omega,
    List.getD_cons_succ]

/-! ### Scan behaviour -/

theorem envScan_spec (mem : Nat → Nat) (M : Nat) :
    ∀ p len fuel, (∀ i, i < M → mem (p + i) ≠ 0) → mem (p + M) = 0 → M < fuel →
      envScan mem p len fuel = some (p + M + 1, len + M + 1) := by
  induction M with
  | zero =>
    intro p len fuel _ h0 hf
    match fuel, hf with
    | fuel + 1, _ =>
      simp only [Nat.add_zero] at h0
      simp [envScan, h0]
  | succ M ih =>
    intro p len fuel hne h0 hf
    match fuel, hf with
    | fuel + 1, hf =>
      have hp : mem p ≠ 0 := by
        have := hne 0 (Nat.succ_pos M); simpa using this
      simp only [envScan, if_pos hp]
      have := ih (p + 1) (len + 1) fuel
        (fun i hi => by
          have := hne (i + 1) (by omega)
          simpa [Nat.add_assoc, Nat.add_comm 1 i] using this)
        (by simpa [Nat.add_assoc, Nat.add_comm 1 M] using h0)
        (by omega)
      rw [this]
      congr 2 <;> omega

theorem auxvScan_spec (mem : Nat → Nat) (K : Nat) :
    ∀ p len fuel, (∀ i, i < K → mem (p + 2 * i) ≠ 0) → mem (p + 2 * K) = 0 → K < fuel →
      auxvScan mem p len fuel = some (len + K + 1) := by
  induction K with
  | zero =>
    intro p len fuel _ h0 hf
    match fuel, hf with
    | fuel + 1, _ =>
      simp only [Nat.mul_zero, Nat.add_zero] at h0
      simp [auxvScan, AT_NULL, h0]
  | succ K ih =>
    intro p len fuel hne h0 hf
    match fuel, hf with
    | fuel + 1, hf =>
      have hp : mem p ≠ 0 := by
        have := hne 0 (Nat.succ_pos K); simpa using this
      simp only [auxvScan, AT_NULL, if_pos hp]
      have := ih (p + 2) (len + 1) fuel
        (fun i hi => by
          have := hne (i + 1) (by omega)
          have he : p + 2 * (i + 1) = p + 2 + 2 * i := by omega
          rwa [he] at this)
        (by
          have he : p + 2 * (K + 1) = p + 2 + 2 * K := by omega
          rwa [he] at h0)
        (by omega)
      rw [this]
      congr 1
      omega

theorem argcScan_hit (mem : Nat → Nat) (p steps : Nat) (h : mem p = steps) :
    argcScan mem p steps = some (p, steps) := by
  cases p <;> simp [argcScan, h]

theorem argcScan_go (mem : Nat → Nat) (b N : Nat) (hb : mem b = N) :
    ∀ d, d ≤ N → (∀ e, 0 < e → e ≤ d → mem (b + e) ≠ N - e) →
      argcScan mem (b + d) (N - d) = some (b, N) := by
  intro d
  induction d with
  | zero =>
    intro _ _
    rw [Nat.add_zero, Nat.sub_zero, argcScan_hit mem b N hb]
  | succ d ih =>
    intro hdN hne
    have h1 : mem (b + (d + 1)) ≠ N - (d + 1) :=
      hne (d + 1) (Nat.succ_pos d) (Nat.le_refl _)
    rw [show b + (d + 1) = (b + d) + 1 by omega]
    rw [show b + (d + 1) = (b + d) + 1 by omega] at h1
    simp only [argcScan, if_neg h1]
    have h4 : N - (d + 1) + 1 = N - d := by omega
    rw [h4]
    exact ih (by omega) (fun e he hed => hne e he (by omega))

/-- The backward scan of `get_initial_stack` on a well-formed frame:
starting two words below the environment array, it stops exactly at the
`argc` cell and has then walked `argc`-many words. -/
theorem argcScan_frame (b : Nat) (av ev : List Nat) (ax : List ElfAuxv)
    (hscan : ∀ k, k < av.length → av.getD (av.length - 1 - k) 0 ≠ k) :
    argcScan (frameMem b (frameWords av ev ax)) (b + av.length) 0 =
      some (b, av.length) := by
  set mem := frameMem b (frameWords av ev ax) with hmem
  have hb : mem b = av.length := by
    rw [hmem, frameMem_at b _ b (Nat.le_refl b), Nat.sub_self, frameWords_getD_zero]
  have h0 : (0 : Nat) = av.length - av.length := (Nat.sub_self _).symm
  rw [h0]
  refine argcScan_go mem b av.length hb av.length (Nat.le_refl _) ?_
  intro e he hed
  have hval : mem (b + e) = av.getD (e - 1) 0 := by
    rw [hmem, frameMem_at b _ (b + e) (by omega), Nat.add_sub_cancel_left,
      show e = (e - 1) + 1 by omega]
    exact frameWords_getD_argv av ev ax (e - 1) (by omega)
  rw [hval]
  have := hscan (av.length - e) (by omega)
  rwa [show av.length - 1 - (av.length - e) = e - 1 by omega] at this

/-! ### Auxv word sequences -/

theorem auxvWords_length (l : List ElfAuxv) : (auxvWords l).length = 2 * l.length := by
  induction l with
  | nil => rfl
  | cons a t ih => simp [auxvWords, ih]; omega

theorem auxvWords_getD_key (l : List ElfAuxv) :
    ∀ i, i < l.length → (auxvWords l).getD (2 * i) 0 = (l.getD i ⟨0, 0⟩).key := by
  induction l with
  | nil => intro i hi; simp at hi
  | cons a t ih =>
    intro i hi
    cases i with
    | zero => simp [auxvWords]
    | succ i =>
      rw [show 2 * (i + 1) = (2 * i + 1) + 1 by omega]
      simp only [auxvWords, List.getD_cons_succ]
      exact ih i (by simpa using hi)

theorem auxvWords_getD_value (l : List ElfAuxv) :
    ∀ i, i < l.length → (auxvWords l).getD (2 * i + 1) 0 = (l.getD i ⟨0, 0⟩).value := by
  induction l with
  | nil => intro i hi; simp at hi
  | cons a t ih =>
    intro i hi
    cases i with
    | zero => simp [auxvWords]
    | succ i =>
      rw [show 2 * (i + 1) + 1 = (2 * i + 1 + 1) + 1 by omega]
      simp only [auxvWords, List.getD_cons_succ]
      exact ih i (by simpa using hi)

/-! ### Stack discovery on a well-formed frame -/

/-- `get_initial_stack` on a synthetic frame with `av.length` argument
pointers, `ev.length` environment pointers and the auxv `axPre ++ [⟨0, tval⟩]`
recovers exactly the frame's own layout. -/
theorem get_initial_stack_frame (b : Nat) (av ev : List Nat) (axPre : List ElfAuxv)
    (tval fuel : Nat)
    (hscan : ∀ k, k < av.length → av.getD (av.length - 1 - k) 0 ≠ k)
    (hev : ∀ x, x ∈ ev → x ≠ 0)
    (hax : ∀ a, a ∈ axPre → a.key ≠ 0)
    (hfe : ev.length < fuel) (hfa : axPre.length < fuel) :
    get_initial_stack (frameMem b (frameWords av ev (axPre ++ [⟨0, tval⟩])))
      (b + av.length + 2) fuel =
    some { argc := b
           argvPos := b + 1
           argvLen := av.length + 1
           envpPos := b + av.length + 2
           envpLen := ev.length + 1
           auxvPos := b + av.length + ev.length + 3
           auxvLen := axPre.length + 1 } := by
  set ax : List ElfAuxv := axPre ++ [⟨0, tval⟩] with hax_def
  set mem := frameMem b (frameWords av ev ax) with hmem
  have henv : envScan mem (b + av.length + 2) 0 fuel =
      some (b + av.length + 2 + ev.length + 1, 0 + ev.length + 1) := by
    refine envScan_spec mem ev.length (b + av.length + 2) 0 fuel ?_ ?_ hfe
    · intro i hi
      have : mem (b + av.length + 2 + i) = ev.getD i 0 := by
        rw [hmem, frameMem_at b _ _ (by omega),
          show b + av.length + 2 + i - b = av.length + 2 + i by omega]
        exact frameWords_getD_env av ev ax i hi
      rw [this]
      exact hev _ (List.getD_eq_getElem ev 0 hi ▸ ev.getElem_mem hi)
    · have : mem (b + av.length + 2 + ev.length) = 0 := by
        rw [hmem, frameMem_at b _ _ (by omega),
          show b + av.length + 2 + ev.length - b = av.length + ev.length + 2 by omega]
        exact frameWords_getD_envNull av ev ax
      exact this
  have hauxpos : b + av.length + 2 + ev.length + 1 = b + av.length + ev.length + 3 := by
    omega
  have hkey : ∀ j, mem (b + av.length + ev.length + 3 + 2 * j) =
      (auxvWords ax).getD (2 * j) 0 := by
    intro j
    rw [hmem, frameMem_at b _ _ (by omega),
      show b + av.length + ev.length + 3 + 2 * j - b = av.length + ev.length + 3 + 2 * j
        by omega]
    exact frameWords_getD_auxv av ev ax (2 * j)
  have haux : auxvScan mem (b + av.length + ev.length + 3) 0 fuel =
      some (0 + axPre.length + 1) := by
    refine auxvScan_spec mem axPre.length (b + av.length + ev.length + 3) 0 fuel ?_ ?_ hfa
    · intro i hi
      rw [hkey i, auxvWords_getD_key ax i (by simp [hax_def]; omega), hax_def,
        List.getD_append _ _ _ _ hi]
      exact hax _ (List.getD_eq_getElem axPre ⟨0, 0⟩ hi ▸ axPre.getElem_mem hi)
    · rw [hkey axPre.length,
        auxvWords_getD_key ax axPre.length (by simp [hax_def]), hax_def,
        List.getD_append_right _ _ _ _ (Nat.le_refl _), Nat.sub_self,
        List.getD_cons_zero]
  have hargc : argcScan mem (b + av.length + 2 - 2) 0 = some (b, av.length) := by
    rw [show b + av.length + 2 - 2 = b + av.length by omega]
    exact argcScan_frame b av ev ax hscan
  unfold get_initial_stack
  rw [hauxpos] at henv
  rw [henv]
  simp only [haux, hargc, Nat.zero_add]

/-! ### Reading and writing auxv arrays in word memory -/

theorem setup_auxv_length (l : List ElfAuxv) (p n e : Nat) :
    (setup_auxv l p n e).length = l.length := by
  simp [setup_auxv]

theorem readAuxv_congr (m1 m2 : Nat → Nat) (p n : Nat)
    (h : ∀ a, p ≤ a → a < p + 2 * n → m1 a = m2 a) :
    readAuxv m1 p n = readAuxv m2 p n := by
  unfold readAuxv
  refine List.map_congr_left ?_
  intro i hi
  rw [List.mem_range] at hi
  rw [h (p + 2 * i) (by omega) (by omega), h (p + 2 * i + 1) (by omega) (by omega)]

theorem readAuxv_frame (b : Nat) (av ev : List Nat) (ax : List ElfAuxv) :
    readAuxv (frameMem b (frameWords av ev ax)) (b + av.length + ev.length + 3)
      ax.length = ax := by
  apply List.ext_getElem
  · simp [readAuxv]
  · intro i h1 h2
    have hi : i < ax.length := by simpa [readAuxv] using h1
    have hword : ∀ j, frameMem b (frameWords av ev ax) (b + av.length + ev.length + 3 + j) =
        (auxvWords ax).getD j 0 := by
      intro j
      rw [frameMem_at b _ _ (by omega),
        show b + av.length + ev.length + 3 + j - b = av.length + ev.length + 3 + j by omega]
      exact frameWords_getD_auxv av ev ax j
    have hkey := hword (2 * i)
    have hval := hword (2 * i + 1)
    simp only [readAuxv, List.getElem_map, List.getElem_range]
    rw [show b + av.length + ev.length + 3 + 2 * i = b + av.length + ev.length + 3 + 2 * i
        from rfl, hkey]
    rw [show b + av.length + ev.length + 3 + 2 * i + 1 = b + av.length + ev.length + 3 + (2 * i + 1)
        by omega, hval]
    rw [auxvWords_getD_key ax i hi, auxvWords_getD_value ax i hi,
      List.getD_eq_getElem ax _ hi]

theorem readAuxv_writeAuxv (mem : Nat → Nat) (p : Nat) (l : List ElfAuxv) :
    readAuxv (writeAuxv mem p l) p l.length = l := by
  apply List.ext_getElem
  · simp [readAuxv]
  · intro i h1 h2
    have hi : i < l.length := by simpa [readAuxv] using h1
    simp only [readAuxv, List.getElem_map, List.getElem_range]
    unfold writeAuxv
    rw [if_pos (by constructor <;> omega), if_pos (by constructor <;> omega)]
    rw [show p + 2 * i - p = 2 * i by omega, show p + 2 * i + 1 - p = 2 * i + 1 by omega]
    rw [auxvWords_getD_key l i hi, auxvWords_getD_value l i hi,
      List.getD_eq_getElem l _ hi]

theorem writeAuxv_below (mem : Nat → Nat) (p : Nat) (l : List ElfAuxv) (a : Nat)
    (h : a < p) : writeAuxv mem p l a = mem a := by
  unfold writeAuxv
  rw [if_neg (by omega)]

/-! ### `process_elf` reduction lemmas -/

/-- The mapping base the code goes on to use: the address `mmap` returned
on success, the unchecked `MAP_FAILED` value `-1` on failure. -/
def mappingOf : Option Nat → Int
  | some base => (base : Int)
  | none => -1

theorem processElf_no_load (elf : Elf) (raw : List Nat) (alloc : Option Nat)
    (h : elf.program_headers.filter (fun h => decide (isLoad h)) = []) :
    processElf elf raw alloc = ([], Except.error "No loadable segments") := by
  unfold processElf
  have hsel : (scanHeaders (none, []) elf.program_headers).1 = none := by
    rw [scanHeaders_fst, h]
    rfl
  simp only [hsel]

theorem processElf_ok (elf : Elf) (raw : List Nat) (alloc : Option Nat)
    (ph : ProgramHeader)
    (hsel : (scanHeaders (none, []) elf.program_headers).1 = some ph)
    (hlen : ph.p_offset + ph.p_filesz ≤ raw.length) :
    processElf elf raw alloc =
      ([Step.mmapCall (ph.p_memsz + ph.p_vaddr) ph.p_flags (MAP_PRIVATE + MAP_ANONYMOUS),
        Step.segmentCopy (mappingOf alloc + (ph.p_vaddr : Int))
          (loadImage elf ph raw (mappingOf alloc)).segBytes.length,
        Step.phdrCopy (mappingOf alloc + (elf.e_phoff : Int))
          (loadImage elf ph raw (mappingOf alloc)).phdrBytes.length,
        Step.stackEdit,
        Step.exec (loadImage elf ph raw (mappingOf alloc)).entry],
       Except.ok (loadImage elf ph raw (mappingOf alloc))) := by
  unfold processElf
  simp only [hsel, if_pos hlen]
  cases alloc <;> rfl

theorem segBytes_length (elf : Elf) (ph : ProgramHeader) (raw : List Nat) (m : Int)
    (hlen : ph.p_offset + ph.p_filesz ≤ raw.length) :
    (loadImage elf ph raw m).segBytes.length = ph.p_filesz := by
  simp only [loadImage, List.length_take, List.length_drop]
  omega

theorem encodePhdr_length (h : ProgramHeader) : (encodePhdr h).length = SIZEOF_PHDR := by
  simp [encodePhdr, leBytes, SIZEOF_PHDR]

theorem phdrBytesOf_length (l : List ProgramHeader) :
    (phdrBytesOf l).length = l.length * SIZEOF_PHDR := by
  induction l with
  | nil => rfl
  | cons h t ih =>
    simp only [phdrBytesOf, List.length_append, encodePhdr_length, ih, List.length_cons]
    ring

theorem setup_auxv_getD (l : List ElfAuxv) (p n e i : Nat) (hi : i < l.length) :
    (setup_auxv l p n e).getD i ⟨0, 0⟩ = rewriteAux p n e (l.getD i ⟨0, 0⟩) := by
  have hi' : i < (setup_auxv l p n e).length := by rwa [setup_auxv_length]
  rw [List.getD_eq_getElem _ _ hi', List.getD_eq_getElem _ _ hi]
  simp [setup_auxv]

theorem rewriteAux_key (p n e : Nat) (a : ElfAuxv) :
    (rewriteAux p n e a).key = a.key := by
  unfold rewriteAux
  repeat' split
  all_goals rfl

/-! ## Concrete inputs used by the closed theorems and witnesses -/

/-- A one-LOAD-segment ELF descriptor used as concrete test input. -/
def phLoadEx : ProgramHeader :=
  { p_type := PT_LOAD, p_flags := 5, p_offset := 0, p_vaddr := 0, p_paddr := 0
    p_filesz := 2, p_memsz := 2, p_align := 8 }

def elfEx : Elf := { entry := 16, e_phoff := 0, program_headers := [phLoadEx] }

def rawEx : List Nat := [7, 8]

/-- An ELF descriptor with no program headers at all (so no LOAD segment). -/
def elfNoHeaders : Elf := { entry := 0, e_phoff := 0, program_headers := [] }

/-- `PT_GNU_STACK`, the stack-flags segment type (0x6474e551).  The loader
never inspects it. -/
def PT_GNU_STACK : Nat := 1685382481

/-! ## Claims -/

/-- C1: for every ELF descriptor with a LOAD segment (and the segment's
file extent inside the file), `process_elf` produces an anonymous private
region of size `memory_size + virtual_address` whose bytes at offsets
`[virtual_address, virtual_address + file_size)` equal the file's bytes at
`[file_offset, file_offset + file_size)`, and the entry pointer is the
mapping base plus the ELF header's entry address. -/
theorem segment_mapping_spec (elf : Elf) (raw : List Nat) (base : Nat)
    (ph : ProgramHeader)
    (hsel : (scanHeaders (none, []) elf.program_headers).1 = some ph)
    (hlen : ph.p_offset + ph.p_filesz ≤ raw.length) :
    (processElf elf raw (some base)).2 = Except.ok (loadImage elf ph raw (base : Int)) ∧
    (loadImage elf ph raw (base : Int)).mmapLen = ph.p_memsz + ph.p_vaddr ∧
    (loadImage elf ph raw (base : Int)).mmapFlags = MAP_PRIVATE + MAP_ANONYMOUS ∧
    (∀ i, ph.p_vaddr ≤ i → i < ph.p_vaddr + ph.p_filesz →
      (loadImage elf ph raw (base : Int)).region1 i =
        raw.getD (ph.p_offset + (i - ph.p_vaddr)) 0) ∧
    (loadImage elf ph raw (base : Int)).entry = (base : Int) + (elf.entry : Int) := by
  refine ⟨?_, rfl, rfl, ?_, rfl⟩
  · rw [processElf_ok elf raw (some base) ph hsel hlen]
    rfl
  · intro i h1 h2
    have hsl : ((raw.drop ph.p_offset).take ph.p_filesz).length = ph.p_filesz := by
      simp only [List.length_take, List.length_drop]
      omega
    show copyBytes (fun _ => 0) ph.p_vaddr ((raw.drop ph.p_offset).take ph.p_filesz) i = _
    unfold copyBytes
    rw [if_pos ⟨h1, by omega⟩]
    have hj : i - ph.p_vaddr < ph.p_filesz := by omega
    simp [List.getD_eq_getD_get?, List.get?_eq_getElem?, hj]

/-- C1 witness: the theorem applied to the concrete one-segment image. -/
theorem segment_mapping_spec_witness :
    (processElf elfEx rawEx (some 4096)).2 =
      Except.ok (loadImage elfEx phLoadEx rawEx (4096 : Int)) ∧
    (loadImage elfEx phLoadEx rawEx (4096 : Int)).region1 1 = rawEx.getD 1 0 := by
  have h := segment_mapping_spec elfEx rawEx 4096 phLoadEx (by decide) (by decide)
  refine ⟨h.1, ?_⟩
  have := h.2.2.2.1 1 (by decide) (by decide)
  simpa [phLoadEx] using this

/-- C2: `setup_auxv` rewrites exactly the recognized entries — `AT_PHDR`,
`AT_PHNUM`, `AT_PHENT`, `AT_ENTRY` get the freshly computed values,
`AT_BASE` gets zero — and leaves every other entry (the `AT_NULL`
terminator included) byte-identical, preserving length, order and the
terminator's position. -/
theorem auxv_rewrite_spec (auxv : List ElfAuxv) (phdr phnum entry : Nat)
    (hne : auxv ≠ [])
    (hterm : (auxv.getD (auxv.length - 1) ⟨0, 0⟩).key = AT_NULL) :
    (setup_auxv auxv phdr phnum entry).length = auxv.length ∧
    (∀ i, i < auxv.length →
      ((setup_auxv auxv phdr phnum entry).getD i ⟨0, 0⟩).key =
        (auxv.getD i ⟨0, 0⟩).key) ∧
    (∀ i, i < auxv.length → (auxv.getD i ⟨0, 0⟩).key = AT_PHDR →
      ((setup_auxv auxv phdr phnum entry).getD i ⟨0, 0⟩).value = phdr) ∧
    (∀ i, i < auxv.length → (auxv.getD i ⟨0, 0⟩).key = AT_PHNUM →
      ((setup_auxv auxv phdr phnum entry).getD i ⟨0, 0⟩).value = phnum) ∧
    (∀ i, i < auxv.length → (auxv.getD i ⟨0, 0⟩).key = AT_PHENT →
      ((setup_auxv auxv phdr phnum entry).getD i ⟨0, 0⟩).value = SIZEOF_PHDR) ∧
    (∀ i, i < auxv.length → (auxv.getD i ⟨0, 0⟩).key = AT_BASE →
      ((setup_auxv auxv phdr phnum entry).getD i ⟨0, 0⟩).value = 0) ∧
    (∀ i, i < auxv.length → (auxv.getD i ⟨0, 0⟩).key = AT_ENTRY →
      ((setup_auxv auxv phdr phnum entry).getD i ⟨0, 0⟩).value = entry) ∧
    (∀ i, i < auxv.length →
      (auxv.getD i ⟨0, 0⟩).key ≠ AT_PHDR → (auxv.getD i ⟨0, 0⟩).key ≠ AT_PHNUM →
      (auxv.getD i ⟨0, 0⟩).key ≠ AT_PHENT → (auxv.getD i ⟨0, 0⟩).key ≠ AT_BASE →
      (auxv.getD i ⟨0, 0⟩).key ≠ AT_ENTRY →
      (setup_auxv auxv phdr phnum entry).getD i ⟨0, 0⟩ = auxv.getD i ⟨0, 0⟩) ∧
    (setup_auxv auxv phdr phnum entry).getD
        ((setup_auxv auxv phdr phnum entry).length - 1) ⟨0, 0⟩ =
      auxv.getD (auxv.length - 1) ⟨0, 0⟩ := by
  have hlen := setup_auxv_length auxv phdr phnum entry
  have hlast : auxv.length - 1 < auxv.length := by
    have : auxv.length ≠ 0 := fun h => hne (List.length_eq_zero.mp h)
    omega
  refine ⟨hlen, ?_, ?_, ?_, ?_, ?_, ?_, ?_, ?_⟩
  · intro i hi
    rw [setup_auxv_getD auxv phdr phnum entry i hi, rewriteAux_key]
  · intro i hi hk
    rw [setup_auxv_getD auxv phdr phnum entry i hi]
    unfold rewriteAux
    rw [if_pos hk]
  · intro i hi hk
    rw [setup_auxv_getD auxv phdr phnum entry i hi]
    unfold rewriteAux
    rw [if_neg (by rw [hk]; decide), if_pos hk]
  · intro i hi hk
    rw [setup_auxv_getD auxv phdr phnum entry i hi]
    unfold rewriteAux
    rw [if_neg (by rw [hk]; decide), if_neg (by rw [hk]; decide), if_pos hk]
  · intro i hi hk
    rw [setup_auxv_getD auxv phdr phnum entry i hi]
    unfold rewriteAux
    rw [if_neg (by rw [hk]; decide), if_neg (by rw [hk]; decide),
      if_neg (by rw [hk]; decide), if_pos hk]
  · intro i hi hk
    rw [setup_auxv_getD auxv phdr phnum entry i hi]
    unfold rewriteAux
    rw [if_neg (by rw [hk]; decide), if_neg (by rw [hk]; decide),
      if_neg (by rw [hk]; decide), if_neg (by rw [hk]; decide), if_pos hk]
  · intro i hi h1 h2 h3 h4 h5
    rw [setup_auxv_getD auxv phdr phnum entry i hi]
    unfold rewriteAux
    rw [if_neg h1, if_neg h2, if_neg h3, if_neg h4, if_neg h5]
  · rw [hlen, setup_auxv_getD auxv phdr phnum entry _ hlast]
    unfold rewriteAux
    rw [if_neg (by rw [hterm]; decide), if_neg (by rw [hterm]; decide),
      if_neg (by rw [hterm]; decide), if_neg (by rw [hterm]; decide),
      if_neg (by rw [hterm]; decide)]

/-- C2 witness: a concrete sentinel-terminated auxv with one recognized
and one unrecognized key. -/
theorem auxv_rewrite_spec_witness :
    (setup_auxv [⟨6, 4096⟩, ⟨3, 11⟩, ⟨0, 0⟩] 500 2 900).length = 3 ∧
    (setup_auxv [⟨6, 4096⟩, ⟨3, 11⟩, ⟨0, 0⟩] 500 2 900).getD 2 ⟨0, 0⟩ =
      (([⟨6, 4096⟩, ⟨3, 11⟩, ⟨0, 0⟩] : List ElfAuxv).getD 2 ⟨0, 0⟩) := by
  have h := auxv_rewrite_spec [⟨6, 4096⟩, ⟨3, 11⟩, ⟨0, 0⟩] 500 2 900
    (by decide) (by decide)
  exact ⟨h.1, by simpa [h.1] using h.2.2.2.2.2.2.2.2⟩

/-- C5: the relocator keeps exactly the TLS and DYNAMIC headers in their
original order, and writes exactly `count * entry_size` bytes of them into
the image at offset `e_phoff`, overwriting the bytes there and nothing
else. -/
theorem phdr_relocation_spec (elf : Elf) (raw : List Nat) (base : Nat)
    (ph : ProgramHeader)
    (hsel : (scanHeaders (none, []) elf.program_headers).1 = some ph) :
    (loadImage elf ph raw (base : Int)).phdrsList =
      elf.program_headers.filter (fun h => decide (isReloc h)) ∧
    (loadImage elf ph raw (base : Int)).phdrBytes.length =
      (loadImage elf ph raw (base : Int)).phnum * SIZEOF_PHDR ∧
    (∀ j, j < (loadImage elf ph raw (base : Int)).phdrBytes.length →
      (loadImage elf ph raw (base : Int)).region2 (elf.e_phoff + j) =
        (loadImage elf ph raw (base : Int)).phdrBytes.getD j 0) ∧
    (∀ a, a < elf.e_phoff ∨
        elf.e_phoff + (loadImage elf ph raw (base : Int)).phdrBytes.length ≤ a →
      (loadImage elf ph raw (base : Int)).region2 a =
        (loadImage elf ph raw (base : Int)).region1 a) := by
  refine ⟨?_, ?_, ?_, ?_⟩
  · show (scanHeaders (none, []) elf.program_headers).2 = _
    rw [scanHeaders_snd]
    exact List.nil_append _
  · show (phdrBytesOf (scanHeaders (none, []) elf.program_headers).2).length = _
    rw [phdrBytesOf_length]
    rfl
  · intro j hj
    have hr2 : (loadImage elf ph raw (base : Int)).region2 (elf.e_phoff + j) =
        copyBytes (loadImage elf ph raw (base : Int)).region1 elf.e_phoff
          (loadImage elf ph raw (base : Int)).phdrBytes (elf.e_phoff + j) := rfl
    rw [hr2]
    unfold copyBytes
    rw [if_pos ⟨by omega, by omega⟩]
    congr 1
    omega
  · intro a ha
    have hr2 : (loadImage elf ph raw (base : Int)).region2 a =
        copyBytes (loadImage elf ph raw (base : Int)).region1 elf.e_phoff
          (loadImage elf ph raw (base : Int)).phdrBytes a := rfl
    rw [hr2]
    unfold copyBytes
    rw [if_neg (by
      rintro ⟨h1, h2⟩
      rcases ha with h | h <;> omega)]

/-- C5 witness: the relocator on the concrete one-segment image (no TLS
or DYNAMIC header, so zero bytes written and region2 = region1). -/
theorem phdr_relocation_spec_witness :
    (loadImage elfEx phLoadEx rawEx (4096 : Int)).phdrsList =
      elfEx.program_headers.filter (fun h => decide (isReloc h)) ∧
    (loadImage elfEx phLoadEx rawEx (4096 : Int)).phdrBytes.length =
      (loadImage elfEx phLoadEx rawEx (4096 : Int)).phnum * SIZEOF_PHDR ∧
    (loadImage elfEx phLoadEx rawEx (4096 : Int)).region2 5 =
      (loadImage elfEx phLoadEx rawEx (4096 : Int)).region1 5 := by
  have h := phdr_relocation_spec elfEx rawEx 4096 phLoadEx (by decide)
  exact ⟨h.1, h.2.1, h.2.2.2 5 (by right; decide)⟩

/-- C7: the code never checks `mmap`'s return value.  On allocation
failure (`MAP_FAILED` = -1) it still proceeds: it copies the segment
bytes to `-1 + vaddr`, copies the headers, edits the stack and jumps —
no fault is signaled and nothing is retried (exactly one mmap call). -/
theorem mmap_failure_ignored :
    (processElf elfEx rawEx none).1 =
      [Step.mmapCall 2 5 34, Step.segmentCopy (-1) 2, Step.phdrCopy (-1) 0,
       Step.stackEdit, Step.exec 15] ∧
    (processElf elfEx rawEx none).2 =
      Except.ok (loadImage elfEx phLoadEx rawEx (-1)) := by
  constructor
  · decide
  · rfl

/-- C8: an ELF with no LOAD segment fails with the "No loadable segments"
structural error, and no mapping is attempted (the step trace is empty). -/
theorem no_load_error_spec (elf : Elf) (raw : List Nat) (alloc : Option Nat)
    (h : elf.program_headers.filter (fun h => decide (isLoad h)) = []) :
    processElf elf raw alloc = ([], Except.error "No loadable segments") ∧
    ∀ len prot flags, Step.mmapCall len prot flags ∉ (processElf elf raw alloc).1 := by
  have heq := processElf_no_load elf raw alloc h
  refine ⟨heq, ?_⟩
  intro len prot flags
  rw [heq]
  simp

/-- C8 witness: the header-less ELF. -/
theorem no_load_error_spec_witness :
    processElf elfNoHeaders [] none = ([], Except.error "No loadable segments") ∧
    Step.mmapCall 0 0 34 ∉ (processElf elfNoHeaders [] none).1 := by
  have h := no_load_error_spec elfNoHeaders [] none (by decide)
  exact ⟨h.1, h.2 0 0 34⟩

/-- C9 counterexample: an ELF with no stack-flags (`PT_GNU_STACK`) segment
is processed successfully — the claimed "no stack segment" failure does
not happen. -/
theorem no_stack_check_counterexample :
    (∀ h, h ∈ elfEx.program_headers → h.p_type ≠ PT_GNU_STACK) ∧
    (processElf elfEx rawEx (some 4096)).2 =
      Except.ok (loadImage elfEx phLoadEx rawEx (4096 : Int)) ∧
    (processElf elfEx rawEx (some 4096)).2 ≠ Except.error "no stack segment" := by
  refine ⟨by decide, rfl, ?_⟩
  intro hcon
  rw [show (processElf elfEx rawEx (some 4096)).2 =
      Except.ok (loadImage elfEx phLoadEx rawEx (4096 : Int)) from rfl] at hcon
  exact Except.noConfusion hcon

/-- C9 amended: the loader has no stack-flags check at all; the only
processing failures are the missing-LOAD error and the out-of-range
segment slice panic — never a "no stack segment" error. -/
theorem no_stack_error_absent (elf : Elf) (raw : List Nat) (alloc : Option Nat)
    (e : String) (h : (processElf elf raw alloc).2 = Except.error e) :
    e = "No loadable segments" ∨ e = "slice index out of range" := by
  unfold processElf at h
  cases hs : (scanHeaders (none, []) elf.program_headers).1 with
  | none =>
    simp only [hs] at h
    left
    exact (Except.error.injEq _ _).mp h.symm
  | some ph =>
    simp only [hs] at h
    by_cases hb : ph.p_offset + ph.p_filesz ≤ raw.length
    · rw [if_pos hb] at h
      exact Except.noConfusion h
    · rw [if_neg hb] at h
      right
      exact ((Except.error.injEq _ _).mp h.symm)

/-- C9 amended witness: the only error a header-less ELF produces is the
missing-LOAD one. -/
theorem no_stack_error_absent_witness :
    (processElf elfNoHeaders [] none).2 = Except.error "No loadable segments" ∧
    ("No loadable segments" = "No loadable segments" ∨
      "No loadable segments" = "slice index out of range") := by
  refine ⟨rfl, ?_⟩
  exact no_stack_error_absent elfNoHeaders [] none "No loadable segments" rfl

/-- C10: with more than one LOAD header, the last one in table order is
silently selected and mapped; processing succeeds with no error. -/
theorem last_load_wins (elf : Elf) (raw : List Nat) (base : Nat)
    (ph : ProgramHeader)
    (hmany : 2 ≤ (elf.program_headers.filter (fun h => decide (isLoad h))).length)
    (hlast : (elf.program_headers.filter (fun h => decide (isLoad h))).getLast? = some ph)
    (hlen : ph.p_offset + ph.p_filesz ≤ raw.length) :
    (scanHeaders (none, []) elf.program_headers).1 = some ph ∧
    (processElf elf raw (some base)).2 =
      Except.ok (loadImage elf ph raw (base : Int)) := by
  have hsel : (scanHeaders (none, []) elf.program_headers).1 = some ph := by
    rw [scanHeaders_fst, hlast]
    rfl
  refine ⟨hsel, ?_⟩
  rw [processElf_ok elf raw (some base) ph hsel hlen]
  rfl

/-- A second LOAD header placed after `phLoadEx` in table order. -/
def phLoadEx2 : ProgramHeader :=
  { p_type := PT_LOAD, p_flags := 6, p_offset := 1, p_vaddr := 4, p_paddr := 0
    p_filesz := 1, p_memsz := 3, p_align := 8 }

/-- An ELF with two LOAD headers. -/
def elfTwoLoads : Elf := { entry := 2, e_phoff := 0, program_headers := [phLoadEx, phLoadEx2] }

/-- C10 witness: with two LOAD headers the second is the one mapped. -/
theorem last_load_wins_witness :
    (scanHeaders (none, []) elfTwoLoads.program_headers).1 = some phLoadEx2 ∧
    (processElf elfTwoLoads rawEx (some 4096)).2 =
      Except.ok (loadImage elfTwoLoads phLoadEx2 rawEx (4096 : Int)) :=
  last_load_wins elfTwoLoads rawEx 4096 phLoadEx2 (by decide) (by decide) (by decide)

/-- C3: on a frame built with a known argument count, under the
precondition that no argument pointer's value equals the number of
backward steps taken when the scan reaches it, Strategy B's backward scan
starting two machine words below the environment-pointer array (at
`envp - 2`, with `envp = b + argc + 2`) terminates at the argument-count
cell `b`, and the recovered count — the number of steps walked, which is
also the value stored in that cell — equals the original count. -/
theorem argc_discovery_spec (b : Nat) (argvPtrs envPtrs : List Nat)
    (auxv : List ElfAuxv)
    (hscan : ∀ k, k < argvPtrs.length →
      argvPtrs.getD (argvPtrs.length - 1 - k) 0 ≠ k) :
    argcScan (frameMem b (frameWords argvPtrs envPtrs auxv))
        (b + argvPtrs.length + 2 - 2) 0 = some (b, argvPtrs.length) ∧
    frameMem b (frameWords argvPtrs envPtrs auxv) b = argvPtrs.length := by
  constructor
  · rw [show b + argvPtrs.length + 2 - 2 = b + argvPtrs.length by omega]
    exact argcScan_frame b argvPtrs envPtrs auxv hscan
  · rw [frameMem_at b _ b (Nat.le_refl b), Nat.sub_self]
    exact frameWords_getD_zero argvPtrs envPtrs auxv

/-- C3 witness: the discovery applied at the boundary counts 0, 1 and 3. -/
theorem argc_discovery_spec_witness :
    (argcScan (frameMem 10 (frameWords [] [200] [⟨0, 0⟩])) (10 + 0 + 2 - 2) 0 =
        some (10, 0) ∧
      frameMem 10 (frameWords [] [200] [⟨0, 0⟩]) 10 = 0) ∧
    (argcScan (frameMem 10 (frameWords [100] [200] [⟨0, 0⟩])) (10 + 1 + 2 - 2) 0 =
        some (10, 1) ∧
      frameMem 10 (frameWords [100] [200] [⟨0, 0⟩]) 10 = 1) ∧
    (argcScan (frameMem 10 (frameWords [100, 101, 102] [200] [⟨0, 0⟩]))
        (10 + 3 + 2 - 2) 0 = some (10, 3) ∧
      frameMem 10 (frameWords [100, 101, 102] [200] [⟨0, 0⟩]) 10 = 3) :=
  ⟨argc_discovery_spec 10 [] [200] [⟨0, 0⟩] (by decide),
   argc_discovery_spec 10 [100] [200] [⟨0, 0⟩] (by decide),
   argc_discovery_spec 10 [100, 101, 102] [200] [⟨0, 0⟩] (by decide)⟩

/-- C4: after the argv adjustment, the word at the new stack-pointer
value (the new `argc` cell) is `N - 1`, and the array after it is the
original `argv[1..N]` in order followed by the null terminator. -/
theorem argv_adjust_spec (b : Nat) (argvPtrs envPtrs : List Nat)
    (axPre : List ElfAuxv) (tval fuel : Nat) (st : Stack)
    (hN : 1 ≤ argvPtrs.length)
    (hscan : ∀ k, k < argvPtrs.length →
      argvPtrs.getD (argvPtrs.length - 1 - k) 0 ≠ k)
    (hev : ∀ x, x ∈ envPtrs → x ≠ 0)
    (hax : ∀ a, a ∈ axPre → a.key ≠ 0)
    (hfe : envPtrs.length < fuel) (hfa : axPre.length < fuel)
    (hst : get_initial_stack
        (frameMem b (frameWords argvPtrs envPtrs (axPre ++ [⟨0, tval⟩])))
        (b + argvPtrs.length + 2) fuel = some st) :
    (adjustArgs (frameMem b (frameWords argvPtrs envPtrs (axPre ++ [⟨0, tval⟩]))) st).1
        ((adjustArgs (frameMem b (frameWords argvPtrs envPtrs (axPre ++ [⟨0, tval⟩]))) st).2.argc) =
      argvPtrs.length - 1 ∧
    (∀ j, j < argvPtrs.length - 1 →
      (adjustArgs (frameMem b (frameWords argvPtrs envPtrs (axPre ++ [⟨0, tval⟩]))) st).1
          ((adjustArgs (frameMem b (frameWords argvPtrs envPtrs (axPre ++ [⟨0, tval⟩]))) st).2.argc
            + 1 + j) =
        argvPtrs.getD (j + 1) 0) ∧
    (adjustArgs (frameMem b (frameWords argvPtrs envPtrs (axPre ++ [⟨0, tval⟩]))) st).1
        ((adjustArgs (frameMem b (frameWords argvPtrs envPtrs (axPre ++ [⟨0, tval⟩]))) st).2.argc
          + 1 + (argvPtrs.length - 1)) = 0 := by
  rw [get_initial_stack_frame b argvPtrs envPtrs axPre tval fuel hscan hev hax hfe hfa]
    at hst
  have hst' := (Option.some.injEq _ _).mp hst
  subst hst'
  set mem := frameMem b (frameWords argvPtrs envPtrs (axPre ++ [⟨0, tval⟩])) with hmem
  refine ⟨?_, ?_, ?_⟩
  · show (fun a => if a = b + 1 then argvPtrs.length + 1 - 1 - 1 else mem a) (b + 1) =
      argvPtrs.length - 1
    simp
  · intro j hj
    show (fun a => if a = b + 1 then argvPtrs.length + 1 - 1 - 1 else mem a)
        (b + 1 + 1 + j) = argvPtrs.getD (j + 1) 0
    simp only []
    rw [if_neg (by omega)]
    rw [hmem, frameMem_at b _ _ (by omega),
      show b + 1 + 1 + j - b = (j + 1) + 1 by omega]
    exact frameWords_getD_argv argvPtrs envPtrs _ (j + 1) (by omega)
  · show (fun a => if a = b + 1 then argvPtrs.length + 1 - 1 - 1 else mem a)
        (b + 1 + 1 + (argvPtrs.length - 1)) = 0
    simp only []
    rw [if_neg (by omega)]
    rw [hmem, frameMem_at b _ _ (by omega),
      show b + 1 + 1 + (argvPtrs.length - 1) - b = argvPtrs.length + 1 by omega]
    exact frameWords_getD_argvNull argvPtrs envPtrs _

/-- C4 witness: dropping the first of three arguments on a concrete frame. -/
theorem argv_adjust_spec_witness :
    (adjustArgs (frameMem 10 (frameWords [100, 101, 102] [200] ([] ++ [⟨0, 0⟩])))
        { argc := 10, argvPos := 11, argvLen := 4, envpPos := 15, envpLen := 2,
          auxvPos := 17, auxvLen := 1 }).1
      ((adjustArgs (frameMem 10 (frameWords [100, 101, 102] [200] ([] ++ [⟨0, 0⟩])))
        { argc := 10, argvPos := 11, argvLen := 4, envpPos := 15, envpLen := 2,
          auxvPos := 17, auxvLen := 1 }).2.argc) = 2 ∧
    (adjustArgs (frameMem 10 (frameWords [100, 101, 102] [200] ([] ++ [⟨0, 0⟩])))
        { argc := 10, argvPos := 11, argvLen := 4, envpPos := 15, envpLen := 2,
          auxvPos := 17, auxvLen := 1 }).1
      ((adjustArgs (frameMem 10 (frameWords [100, 101, 102] [200] ([] ++ [⟨0, 0⟩])))
        { argc := 10, argvPos := 11, argvLen := 4, envpPos := 15, envpLen := 2,
          auxvPos := 17, auxvLen := 1 }).2.argc + 1 + 0) = 101 ∧
    (adjustArgs (frameMem 10 (frameWords [100, 101, 102] [200] ([] ++ [⟨0, 0⟩])))
        { argc := 10, argvPos := 11, argvLen := 4, envpPos := 15, envpLen := 2,
          auxvPos := 17, auxvLen := 1 }).1
      ((adjustArgs (frameMem 10 (frameWords [100, 101, 102] [200] ([] ++ [⟨0, 0⟩])))
        { argc := 10, argvPos := 11, argvLen := 4, envpPos := 15, envpLen := 2,
          auxvPos := 17, auxvLen := 1 }).2.argc + 1 + 2) = 0 := by
  have h := argv_adjust_spec 10 [100, 101, 102] [200] [] 0 5
    { argc := 10, argvPos := 11, argvLen := 4, envpPos := 15, envpLen := 2,
      auxvPos := 17, auxvLen := 1 }
    (by decide) (by decide) (by decide) (by decide) (by decide) (by decide) (by decide)
  exact ⟨h.1, by simpa using h.2.1 0 (by decide), h.2.2⟩

theorem readAuxv_length (mem : Nat → Nat) (p n : Nat) : (readAuxv mem p n).length = n := by
  simp [readAuxv]

theorem readWords_eq_list (mem' : Nat → Nat) (p : Nat) (l : List Nat)
    (h : ∀ i, i < l.length → mem' (p + i) = l.getD i 0) :
    readWords mem' p l.length = l := by
  apply List.ext_getElem
  · simp [readWords]
  · intro i h1 h2
    simp only [readWords, List.getElem_map, List.getElem_range]
    rw [h i h2, List.getD_eq_getElem l 0 h2]

/-- C6: on equivalent inputs — the loader invoked as
`loader target args...` on a live frame whose pointers resolve to those
strings, with the same original auxv and the same computed image values —
the discovered-stack Strategy B produces the same observable stack as the
constructed-stack Strategy A (modelled from the spec): same argument
count, same argument strings in order, same auxiliary vector contents
(environment handling differs by design and is outside the comparison). -/
theorem strategies_equivalent (b loaderPtr targetPtr : Nat) (argPtrs envPtrs : List Nat)
    (axPre : List ElfAuxv) (tval : Nat) (strAt : Nat → List Nat)
    (target : List Nat) (args : List (List Nat)) (phdr phnum entry fuel : Nat)
    (hstr_t : strAt targetPtr = target)
    (hstr_a : argPtrs.map strAt = args)
    (hbig : ∀ p, p ∈ loaderPtr :: targetPtr :: argPtrs → 2 + argPtrs.length ≤ p)
    (hev : ∀ x, x ∈ envPtrs → x ≠ 0)
    (hax : ∀ a, a ∈ axPre → a.key ≠ 0)
    (hfe : envPtrs.length < fuel) (hfa : axPre.length < fuel) :
    strategyB
        (frameMem b (frameWords (loaderPtr :: targetPtr :: argPtrs) envPtrs
          (axPre ++ [⟨0, tval⟩])))
        (b + (loaderPtr :: targetPtr :: argPtrs).length + 2) fuel phdr phnum entry strAt =
      some (strategyA target args (axPre ++ [⟨0, tval⟩]) phdr phnum entry) := by
  have hscan : ∀ k, k < (loaderPtr :: targetPtr :: argPtrs).length →
      (loaderPtr :: targetPtr :: argPtrs).getD
        ((loaderPtr :: targetPtr :: argPtrs).length - 1 - k) 0 ≠ k := by
    intro k hk
    have hlt : (loaderPtr :: targetPtr :: argPtrs).length - 1 - k <
        (loaderPtr :: targetPtr :: argPtrs).length := by
      simp at hk ⊢
      omega
    have hm : (loaderPtr :: targetPtr :: argPtrs).getD
        ((loaderPtr :: targetPtr :: argPtrs).length - 1 - k) 0 ∈
        (loaderPtr :: targetPtr :: argPtrs) := by
      rw [List.getD_eq_getElem _ 0 hlt]
      exact (loaderPtr :: targetPtr :: argPtrs).getElem_mem hlt
    have := hbig _ hm
    simp at hk
    omega
  have hst := get_initial_stack_frame b (loaderPtr :: targetPtr :: argPtrs) envPtrs
    axPre tval fuel hscan hev hax hfe hfa
  unfold strategyB
  rw [hst]
  simp only [Option.map_some', adjustArgs]
  simp only [if_true]
  set av := loaderPtr :: targetPtr :: argPtrs with hav
  set ax : List ElfAuxv := axPre ++ [⟨0, tval⟩] with haxd
  set mem := frameMem b (frameWords av envPtrs ax) with hmemd
  set pos := b + av.length + envPtrs.length + 3 with hposd
  set newAux := setup_auxv (readAuxv mem pos (axPre.length + 1)) phdr phnum entry
    with hnauxd
  set mem2 := fun a => if a = b + 1 then av.length + 1 - 1 - 1
    else writeAuxv mem pos newAux a with hmem2d
  have havlen : av.length = argPtrs.length + 2 := by rw [hav]; simp
  have hargs_len : args.length = argPtrs.length := by rw [← hstr_a]; simp
  have haxlen : ax.length = axPre.length + 1 := by rw [haxd]; simp
  have hreadax : readAuxv mem pos (axPre.length + 1) = ax := by
    have h := readAuxv_frame b av envPtrs ax
    rw [← hmemd, ← hposd, haxlen] at h
    exact h
  have hauxfield : readAuxv mem2 pos (axPre.length + 1) =
      setup_auxv ax phdr phnum entry := by
    have h1 : readAuxv mem2 pos (axPre.length + 1) =
        readAuxv (writeAuxv mem pos newAux) pos (axPre.length + 1) := by
      refine readAuxv_congr _ _ _ _ ?_
      intro a ha1 ha2
      rw [hmem2d]
      simp only []
      rw [if_neg (by omega)]
    have h2 : newAux.length = axPre.length + 1 := by
      rw [hnauxd, setup_auxv_length, readAuxv_length]
    have h3 : readAuxv (writeAuxv mem pos newAux) pos (axPre.length + 1) = newAux := by
      rw [← h2]
      exact readAuxv_writeAuxv mem pos newAux
    rw [h1, h3, hnauxd, hreadax]
  have hargvlist : readWords mem2 (b + 1 + 1) (av.length + 1 - 1 - 1) =
      targetPtr :: argPtrs := by
    rw [show av.length + 1 - 1 - 1 = (targetPtr :: argPtrs).length by
      rw [havlen]; simp]
    refine readWords_eq_list mem2 (b + 1 + 1) (targetPtr :: argPtrs) ?_
    intro i hi
    have hi' : i < argPtrs.length + 1 := by simpa using hi
    rw [hmem2d]
    simp only []
    rw [if_neg (by omega)]
    rw [writeAuxv_below mem pos newAux _ (by omega)]
    rw [hmemd, frameMem_at b _ _ (by omega),
      show b + 1 + 1 + i - b = (i + 1) + 1 by omega]
    rw [frameWords_getD_argv av envPtrs ax (i + 1) (by omega)]
    rw [hav, List.getD_cons_succ]
  rw [hauxfield, hargvlist]
  simp only [List.map_cons, hstr_t, hstr_a]
  unfold strategyA
  have hc : av.length + 1 - 1 - 1 = (target :: args).length := by
    simp only [List.length_cons]
    omega
  rw [hc]

/-- C6 witness: the two strategies agree on a concrete frame: loader path
pointer 100, target pointer 101, one forwarded argument pointer 102, one
environment pointer, a one-entry auxv, pointers read back by `fun p => [p]`. -/
theorem strategies_equivalent_witness :
    strategyB
        (frameMem 10 (frameWords (100 :: 101 :: [102]) [200]
          ([⟨6, 77⟩] ++ [⟨0, 0⟩])))
        (10 + (100 :: 101 :: [102]).length + 2) 5 4096 1 900 (fun p => [p]) =
      some (strategyA [101] [[102]] ([⟨6, 77⟩] ++ [⟨0, 0⟩]) 4096 1 900) :=
  strategies_equivalent 10 100 101 [102] [200] [⟨6, 77⟩] 0 (fun p => [p])
    [101] [[102]] 4096 1 900 5 rfl rfl (by decide) (by decide) (by decide)
    (by decide) (by decide)

end Shelf
